/-
  Verification of the functionality-documentation-generator repository.

  Shallow embedding of the three source files:
    - parser.py            (extract_functions_and_docs)
    - doc_generator.py     (generate_doc, main, combine_markdown_files)
    - srs_generator.py     (SRSGenerator: generate_srs_content, create_table_of_contents)

  Strings are modelled as `List Char` where character-level reasoning is needed;
  Python string primitives (str.strip, str.replace, str.title, str.format,
  str.split) are embedded as executable Lean functions below.
-/
import Mathlib

set_option linter.unusedVariables false

/-! ## Python string primitives -/

/-- The `\x7b` brace character used by Python `str.format` replacement fields. -/
def lbChar : Char := '\x7b'

/-- The `\x7d` brace character used by Python `str.format` replacement fields. -/
def rbChar : Char := '\x7d'

/-- Python whitespace for `str.strip`: space, tab, newline, carriage return,
vertical tab, form feed. -/
def isPySpace (c : Char) : Bool :=
  c = ' ' || c = '\t' || c = '\n' || c = '\r' || c = '\x0b' || c = '\x0c'

/-- Python `str.strip()` on a character list. -/
def stripL (l : List Char) : List Char :=
  ((l.dropWhile isPySpace).reverse.dropWhile isPySpace).reverse

/-- Python `str.strip()` on strings. -/
def pyStrip (s : String) : String :=
  ⟨stripL s.toList⟩

/-- Python `str.replace(target, repl)`: replace every non-overlapping
occurrence, scanning left to right (CPython semantics for non-empty target). -/
def pyReplaceL (target repl : List Char) (l : List Char) : List Char :=
  match l with
  | [] => []
  | c :: rest =>
    if target.isPrefixOf (c :: rest) ∧ target ≠ [] then
      repl ++ pyReplaceL target repl (rest.drop (target.length - 1))
    else
      c :: pyReplaceL target repl rest
termination_by l.length
decreasing_by
  · simp only [List.length_drop, List.length_cons]
    omega
  · simp only [List.length_cons]
    omega

/-- Python `str.split(sep)` for a non-empty separator `sep`, scanning left to
right and cutting at each non-overlapping occurrence. -/
def splitOnList (sep : List Char) (l : List Char) : List (List Char) :=
  match l with
  | [] => [[]]
  | c :: rest =>
    if sep.isPrefixOf (c :: rest) ∧ sep ≠ [] then
      [] :: splitOnList sep (rest.drop (sep.length - 1))
    else
      match splitOnList sep rest with
      | [] => [[c]]
      | h :: t => (c :: h) :: t
termination_by l.length
decreasing_by
  · simp only [List.length_drop, List.length_cons]
    omega
  · simp only [List.length_cons]
    omega

/-- Python `str.title()` character step: an alphabetic character is upper-cased
when the previous character was not cased, lower-cased otherwise (ASCII model
of CPython's `str.title`). -/
def pyTitleAux (prevCased : Bool) (l : List Char) : List Char :=
  match l with
  | [] => []
  | c :: rest =>
    if c.isAlpha then
      (if prevCased then c.toLower else c.toUpper) :: pyTitleAux true rest
    else
      c :: pyTitleAux false rest

/-- Python `str.title()` on strings (ASCII model). -/
def pyTitle (s : String) : String :=
  ⟨pyTitleAux false s.toList⟩

/-- Splits a `str.format` replacement field at the first closing brace:
`fieldSplit l = some (name, rest)` when `l = name ++ rbChar :: rest` and
`name` contains no closing brace. -/
def fieldSplit : List Char → Option (List Char × List Char)
  | [] => none
  | c :: rest =>
    if c = rbChar then some ([], rest)
    else (fieldSplit rest).map (fun p => (c :: p.1, p.2))

theorem fieldSplit_length {l a b : List Char} (h : fieldSplit l = some (a, b)) :
    b.length < l.length := by
  induction l generalizing a b with
  | nil => simp [fieldSplit] at h
  | cons c rest ih =>
    simp only [fieldSplit] at h
    split at h
    · cases h
      simp
    · cases hf : fieldSplit rest with
      | none => rw [hf] at h; simp at h
      | some p =>
        rw [hf] at h
        cases h
        have := ih (a := p.1) (b := p.2) (by rw [hf])
        simp only [List.length_cons]
        omega

/-- Python `str.format` with a single keyword argument `key := value`,
restricted to plain replacement fields (no conversion or format spec, which
none of the repository's templates use).  `\x7b\x7b` and `\x7d\x7d` are brace
escapes; a replacement field whose name differs from `key` raises `KeyError`
(modelled as `none`), as does an unmatched brace. -/
def pyFormatScan (key value : List Char) (l : List Char) : Option (List Char) :=
  match l with
  | [] => some []
  | c :: rest =>
    if c = lbChar then
      match rest with
      | [] => none
      | c2 :: rest2 =>
        if c2 = lbChar then
          (pyFormatScan key value rest2).map (lbChar :: ·)
        else
          match hf : fieldSplit (c2 :: rest2) with
          | none => none
          | some (name, rest3) =>
            if name = key then
              (pyFormatScan key value rest3).map (value ++ ·)
            else none
    else if c = rbChar then
      match rest with
      | [] => none
      | c2 :: rest2 =>
        if c2 = rbChar then (pyFormatScan key value rest2).map (rbChar :: ·)
        else none
    else
      (pyFormatScan key value rest).map (c :: ·)
termination_by l.length
decreasing_by
  · simp only [List.length_cons]; omega
  · have := fieldSplit_length hf
    simp only [List.length_cons] at *
    omega
  · simp only [List.length_cons]; omega
  · simp only [List.length_cons]; omega

/-- Python `template.format(key=value)` on strings. -/
def pyFormat (template : String) (key value : String) : Option String :=
  (pyFormatScan key.toList value.toList template.toList).map fun l => ⟨l⟩

/-! ## ASCII case lemmas for `Char.toUpper` / `Char.toLower` -/

theorem toNat_ofNat_valid {n : Nat} (h : n.isValidChar) : (Char.ofNat n).toNat = n := by
  unfold Char.ofNat
  rw [dif_pos h]
  rfl

theorem isLower_iff (c : Char) : c.isLower = true ↔ 97 ≤ c.toNat ∧ c.toNat ≤ 122 := by
  simp [Char.isLower]
  constructor
  · intro ⟨h1, h2⟩; exact ⟨h1, h2⟩
  · intro ⟨h1, h2⟩; exact ⟨h1, h2⟩

theorem isUpper_iff (c : Char) : c.isUpper = true ↔ 65 ≤ c.toNat ∧ c.toNat ≤ 90 := by
  simp [Char.isUpper]
  constructor
  · intro ⟨h1, h2⟩; exact ⟨h1, h2⟩
  · intro ⟨h1, h2⟩; exact ⟨h1, h2⟩

theorem toUpper_of_not_lower {c : Char} (h : c.isLower = false) : c.toUpper = c := by
  rw [Char.toUpper]
  simp only [ge_iff_le]
  rw [if_neg]
  intro hx
  rw [(isLower_iff c).mpr hx] at h
  exact Bool.true_eq_false.mp h

theorem toLower_of_not_upper {c : Char} (h : c.isUpper = false) : c.toLower = c := by
  rw [Char.toLower]
  simp only [ge_iff_le]
  rw [if_neg]
  intro hx
  rw [(isUpper_iff c).mpr hx] at h
  exact Bool.true_eq_false.mp h

theorem toUpper_toNat {c : Char} (h : c.isLower = true) : (c.toUpper).toNat = c.toNat - 32 := by
  have hb := (isLower_iff c).mp h
  rw [Char.toUpper]
  simp only [ge_iff_le]
  rw [if_pos ⟨hb.1, hb.2⟩]
  apply toNat_ofNat_valid
  left
  omega

theorem toLower_toNat {c : Char} (h : c.isUpper = true) : (c.toLower).toNat = c.toNat + 32 := by
  have hb := (isUpper_iff c).mp h
  rw [Char.toLower]
  simp only [ge_iff_le]
  rw [if_pos ⟨hb.1, hb.2⟩]
  apply toNat_ofNat_valid
  left
  omega

theorem toUpper_not_lower (c : Char) : (c.toUpper).isLower = false := by
  by_cases h : c.isLower = true
  · have hb := (isLower_iff c).mp h
    have hn := toUpper_toNat h
    rw [Bool.eq_false_iff]
    intro hl
    have := (isLower_iff _).mp hl
    omega
  · rw [toUpper_of_not_lower (Bool.not_eq_true _ ▸ h)]
    exact Bool.not_eq_true _ ▸ h

theorem toLower_not_upper (c : Char) : (c.toLower).isUpper = false := by
  by_cases h : c.isUpper = true
  · have hb := (isUpper_iff c).mp h
    have hn := toLower_toNat h
    rw [Bool.eq_false_iff]
    intro hl
    have := (isUpper_iff _).mp hl
    omega
  · rw [toLower_of_not_upper (Bool.not_eq_true _ ▸ h)]
    exact Bool.not_eq_true _ ▸ h

theorem toUpper_idem (c : Char) : c.toUpper.toUpper = c.toUpper :=
  toUpper_of_not_lower (toUpper_not_lower c)

theorem toLower_idem (c : Char) : c.toLower.toLower = c.toLower :=
  toLower_of_not_upper (toLower_not_upper c)

theorem isAlpha_toUpper {c : Char} (h : c.isAlpha = true) : (c.toUpper).isAlpha = true := by
  by_cases hl : c.isLower = true
  · have hb := (isLower_iff c).mp hl
    have hn := toUpper_toNat hl
    rw [Char.isAlpha, Bool.or_eq_true]
    left
    rw [isUpper_iff]
    omega
  · rw [toUpper_of_not_lower (Bool.not_eq_true _ ▸ hl)]
    exact h

theorem isAlpha_toLower {c : Char} (h : c.isAlpha = true) : (c.toLower).isAlpha = true := by
  by_cases hu : c.isUpper = true
  · have hb := (isUpper_iff c).mp hu
    have hn := toLower_toNat hu
    rw [Char.isAlpha, Bool.or_eq_true]
    right
    rw [isLower_iff]
    omega
  · rw [toLower_of_not_upper (Bool.not_eq_true _ ▸ hu)]
    exact h

theorem isAlpha_of_isLower {c : Char} (h : c.isLower = true) : c.isAlpha = true := by
  rw [Char.isAlpha, Bool.or_eq_true]
  exact Or.inr h

/-! ## The Aggregator's title transform (doc_generator.py lines 114-115):
`filename.replace("_", " ").replace(".md", "").title()` -/

/-- The title derivation used by `combine_markdown_files`:
underscores to spaces, `.md` removed, then Python `str.title()`. -/
def mdTitleL (l : List Char) : List Char :=
  pyTitleAux false (pyReplaceL ".md".toList [] (pyReplaceL ['_'] [' '] l))

/-- String version of the Aggregator's title derivation. -/
def mdTitle (s : String) : String :=
  ⟨mdTitleL s.toList⟩

theorem pyTitleAux_cons (b : Bool) (c : Char) (rest : List Char) :
    pyTitleAux b (c :: rest) =
      (if c.isAlpha then (if b then c.toLower else c.toUpper) else c) ::
        pyTitleAux c.isAlpha rest := by
  rw [pyTitleAux]
  by_cases h : c.isAlpha <;> simp [h]

theorem mem_pyTitleAux {x : Char} :
    ∀ {b : Bool} {l : List Char}, x ∈ pyTitleAux b l → x ∈ l ∨ x.isAlpha = true := by
  intro b l
  induction l generalizing b with
  | nil => intro h; simp [pyTitleAux] at h
  | cons c rest ih =>
    intro h
    rw [pyTitleAux_cons] at h
    rcases List.mem_cons.mp h with h1 | h1
    · by_cases hc : c.isAlpha = true
      · rw [if_pos hc] at h1
        right
        by_cases hb : b = true
        · rw [hb, if_pos rfl] at h1
          exact h1 ▸ isAlpha_toLower hc
        · rw [Bool.not_eq_true] at hb
          rw [hb] at h1
          simp at h1
          exact h1 ▸ isAlpha_toUpper hc
      · rw [if_neg hc] at h1
        exact Or.inl (h1 ▸ List.mem_cons_self c rest)
    · rcases ih h1 with h2 | h2
      · exact Or.inl (List.mem_cons_of_mem c h2)
      · exact Or.inr h2

/-- Idempotence of the `str.title` model: running the title step a second
time changes nothing. -/
theorem pyTitleAux_idem : ∀ (b : Bool) (l : List Char),
    pyTitleAux b (pyTitleAux b l) = pyTitleAux b l := by
  intro b l
  induction l generalizing b with
  | nil => rfl
  | cons c rest ih =>
    rw [pyTitleAux_cons]
    by_cases hc : c.isAlpha = true
    · rw [if_pos hc]
      by_cases hb : b = true
      · subst hb
        rw [if_pos rfl, pyTitleAux_cons, if_pos (isAlpha_toLower hc),
          isAlpha_toLower hc, if_pos rfl, toLower_idem, hc, ih]
      · rw [Bool.not_eq_true] at hb
        subst hb
        simp only [Bool.false_eq_true, if_false]
        rw [pyTitleAux_cons, if_pos (isAlpha_toUpper hc), isAlpha_toUpper hc]
        simp only [Bool.false_eq_true, if_false]
        rw [toUpper_idem, hc, ih]
    · rw [if_neg hc, pyTitleAux_cons, if_neg hc]
      rw [ih]

/-- No output of the title step contains a `'.'` immediately followed by a
lowercase letter (so in particular no `".md"` substring survives it). -/
def noPeriodLower : List Char → Prop
  | x :: y :: rest => ¬(x = '.' ∧ y.isLower = true) ∧ noPeriodLower (y :: rest)
  | _ => True

theorem noPeriodLower_tail {c : Char} {l : List Char}
    (h : noPeriodLower (c :: l)) : noPeriodLower l := by
  cases l with
  | nil => trivial
  | cons y rest => exact h.2

theorem pyTitleAux_noPeriodLower : ∀ (b : Bool) (l : List Char),
    noPeriodLower (pyTitleAux b l) := by
  intro b l
  induction l generalizing b with
  | nil => trivial
  | cons c rest ih =>
    cases rest with
    | nil =>
      rw [pyTitleAux_cons]
      simp [pyTitleAux, noPeriodLower]
    | cons c2 rest2 =>
      rw [pyTitleAux_cons, pyTitleAux_cons]
      refine ⟨?_, ?_⟩
      · rintro ⟨h1, h2⟩
        by_cases hc : c.isAlpha = true
        · rw [if_pos hc] at h1
          by_cases hb : b = true
          · rw [hb, if_pos rfl] at h1
            have := isAlpha_toLower hc
            rw [h1] at this
            simp [Char.isAlpha, Char.isUpper, Char.isLower] at this
          · rw [Bool.not_eq_true] at hb
            rw [hb] at h1
            simp at h1
            have := isAlpha_toUpper hc
            rw [h1] at this
            simp [Char.isAlpha, Char.isUpper, Char.isLower] at this
        · rw [if_neg hc] at h1
          subst h1
          rw [show Char.isAlpha '.' = false by decide] at h2
          simp only [Bool.false_eq_true, if_false] at h2
          by_cases hc2 : c2.isAlpha = true
          · rw [if_pos hc2] at h2
            rw [toUpper_not_lower c2] at h2
            exact Bool.true_eq_false.mp h2.symm
          · rw [if_neg hc2] at h2
            exact hc2 (isAlpha_of_isLower h2)
      · rw [← pyTitleAux_cons]
        exact ih (Char.isAlpha c)

/-! ## Lemmas about `splitOnList` -/

theorem splitOnList_of_not_inf {sep : List Char} :
    ∀ {l : List Char}, ¬ sep <:+: l → splitOnList sep l = [l] := by
  intro l
  induction l with
  | nil => intro _; rw [splitOnList]
  | cons c rest ih =>
    intro h
    have hnp : ¬ (sep.isPrefixOf (c :: rest) = true ∧ sep ≠ []) := by
      rintro ⟨hp, -⟩
      exact h ( List.IsPrefix.isInfix ( List.isPrefixOf_iff_prefix.mp hp))
    rw [splitOnList, if_neg hnp, ih (fun hin => h ( List.infix_cons hin))]

/-- An occurrence of `sep` starting strictly inside `a` in `a ++ sep ++ b`
lies entirely within `a ++ sep.dropLast`. -/
theorem sep_not_pre_mid {sep a b : List Char} (hsep : sep ≠ []) (ha : a ≠ [])
    (h : ¬ sep <:+: (a ++ sep.dropLast)) :
    ¬ (sep.isPrefixOf (a ++ sep ++ b) = true) := by
  intro hp
  have hpre : sep <+: (a ++ sep ++ b) := List.isPrefixOf_iff_prefix.mp hp
  have hsl : 1 ≤ sep.length := by
    cases sep with
    | nil => exact absurd rfl hsep
    | cons s ss => simp
  have hal : 1 ≤ a.length := by
    cases a with
    | nil => exact absurd rfl ha
    | cons s ss => simp
  have hlen : sep.length ≤ a.length + sep.length - 1 := by omega
  have htake : sep <+: (a ++ sep ++ b).take (a.length + sep.length - 1) := by
    rw [List.prefix_take_iff]
    exact ⟨hpre, hlen⟩
  have heq : (a ++ sep ++ b).take (a.length + sep.length - 1) = a ++ sep.dropLast := by
    rw [List.append_assoc, List.take_append_eq_append_take,
      List.take_of_length_le (l := a) (by omega),
      List.take_append_eq_append_take,
      show a.length + sep.length - 1 - a.length = sep.length - 1 by omega,
      List.dropLast_eq_take,
      show sep.length - 1 - sep.length = 0 by omega,
      List.take_zero, List.append_nil]
  rw [heq] at htake
  exact h ( List.IsPrefix.isInfix htake)

theorem splitOnList_chunk {sep b : List Char} (hsep : sep ≠ []) :
    ∀ a : List Char, ¬ sep <:+: (a ++ sep.dropLast) →
      splitOnList sep (a ++ sep ++ b) = a :: splitOnList sep b := by
  intro a
  induction a with
  | nil =>
    intro _
    obtain ⟨s, ss, rfl⟩ : ∃ s ss, sep = s :: ss := by
      cases sep with
      | nil => exact absurd rfl hsep
      | cons s ss => exact ⟨s, ss, rfl⟩
    rw [List.nil_append, show (s :: ss) ++ b = s :: (ss ++ b) from rfl, splitOnList]
    rw [if_pos ⟨ List.isPrefixOf_iff_prefix.mpr ⟨b, by simp⟩, hsep⟩]
    simp only [List.length_cons, Nat.add_sub_cancel]
    rw [List.drop_left ss b]
  | cons x xs ih =>
    intro h
    have hnp := sep_not_pre_mid (b := b) hsep (List.cons_ne_nil x xs) h
    have hx : ¬ sep <:+: (xs ++ sep.dropLast) := by
      intro hin
      exact h ( List.infix_cons hin)
    rw [show (x :: xs) ++ sep ++ b = x :: (xs ++ sep ++ b) from rfl, splitOnList]
    rw [if_neg (fun hc => hnp hc.1), ih hx]

/-- The page-break-aware concatenation: parts joined by `sep` between
consecutive parts. -/
def interc (sep : List Char) : List (List Char) → List Char
  | [] => []
  | [p] => p
  | p :: q :: rest => p ++ sep ++ interc sep (q :: rest)

/-- No part of the list lets `sep` occur anywhere except at the joints
`interc` introduces: a non-last part must not contain `sep` even when the
first `sep.length - 1` characters of the following separator are appended,
and the last part must not contain `sep` at all. -/
def cleanParts (sep : List Char) : List (List Char) → Prop
  | [] => True
  | [p] => ¬ sep <:+: p
  | p :: q :: rest => ¬ sep <:+: (p ++ sep.dropLast) ∧ cleanParts sep (q :: rest)

theorem splitOnList_interc {sep : List Char} (hsep : sep ≠ []) :
    ∀ parts : List (List Char), parts ≠ [] → cleanParts sep parts →
      splitOnList sep (interc sep parts) = parts := by
  intro parts
  induction parts with
  | nil => intro h _; exact absurd rfl h
  | cons p rest ih =>
    intro _ hclean
    cases rest with
    | nil =>
      rw [interc, splitOnList_of_not_inf hclean]
    | cons q rest2 =>
      rw [interc, splitOnList_chunk hsep p hclean.1,
        ih (List.cons_ne_nil q rest2) hclean.2]

theorem noPeriodLower_pair : ∀ (u : List Char) {x y : Char} {v : List Char},
    noPeriodLower (u ++ x :: y :: v) → ¬(x = '.' ∧ y.isLower = true)
  | [], _, _, _, h => h.1
  | a :: u', _, _, _, h => noPeriodLower_pair u' (noPeriodLower_tail h)

theorem noPeriodLower_not_md {l : List Char} (h : noPeriodLower l) :
    ¬ (('.' :: 'm' :: 'd' :: []) <:+: l) := by
  rintro ⟨s, t, rfl⟩
  have := noPeriodLower_pair s (x := '.') (y := 'm') (v := 'd' :: t)
    (by simpa using h)
  exact this ⟨rfl, by decide⟩

theorem single_inf_mem {a : Char} {l : List Char} (h : [a] <:+: l) : a ∈ l := by
  obtain ⟨s, t, rfl⟩ := h
  simp

theorem pyReplaceL_of_not_inf {t r : List Char} :
    ∀ {l : List Char}, ¬ t <:+: l → pyReplaceL t r l = l := by
  intro l
  induction l with
  | nil => intro _; rw [pyReplaceL]
  | cons c rest ih =>
    intro h
    have hnp : ¬ (t.isPrefixOf (c :: rest) = true ∧ t ≠ []) := by
      rintro ⟨hp, -⟩
      exact h ( List.IsPrefix.isInfix ( List.isPrefixOf_iff_prefix.mp hp))
    rw [pyReplaceL, if_neg hnp, ih (fun hin => h ( List.infix_cons hin))]

theorem mem_pyReplaceL_nil {t : List Char} {x : Char} :
    ∀ l : List Char, x ∈ pyReplaceL t [] l → x ∈ l
  | [], hx => by rw [pyReplaceL] at hx; exact absurd hx (List.not_mem_nil x)
  | c :: rest, hx => by
    rw [pyReplaceL] at hx
    split at hx
    · rw [List.nil_append] at hx
      have h2 := mem_pyReplaceL_nil (rest.drop (t.length - 1)) hx
      exact List.mem_cons_of_mem c (List.mem_of_mem_drop h2)
    · rcases List.mem_cons.mp hx with h | h
      · exact h ▸ List.mem_cons_self c rest
      · exact List.mem_cons_of_mem c (mem_pyReplaceL_nil rest h)
termination_by l => l.length
decreasing_by
  all_goals simp only [List.length_drop, List.length_cons]
  all_goals omega

theorem underscore_not_mem_replUnd : ∀ l : List Char, '_' ∉ pyReplaceL ['_'] [' '] l := by
  intro l
  induction l with
  | nil => rw [pyReplaceL]; exact List.not_mem_nil _
  | cons c rest ih =>
    rw [pyReplaceL]
    by_cases hc : c = '_'
    · subst hc
      rw [if_pos ⟨by simp [List.isPrefixOf], by simp⟩]
      intro hx
      rcases List.mem_append.mp hx with h | h
      · simp at h
      · simp only [List.length_cons, List.length_nil, Nat.sub_self,
          List.drop_zero] at h
        exact ih h
    · rw [if_neg]
      · intro hx
        rcases List.mem_cons.mp hx with h | h
        · exact hc h.symm
        · exact ih h
      · rintro ⟨hp, -⟩
        simp [List.isPrefixOf] at hp
        exact hc hp.symm

/-- Idempotence of the Aggregator's full title transform. -/
theorem mdTitleL_idem (l : List Char) : mdTitleL (mdTitleL l) = mdTitleL l := by
  have hund : '_' ∉ mdTitleL l := by
    intro hx
    rcases mem_pyTitleAux hx with h | h
    · exact underscore_not_mem_replUnd _ (mem_pyReplaceL_nil _ h)
    · exact absurd h (by decide)
  have hmd : ¬ (('.' :: 'm' :: 'd' :: []) <:+: mdTitleL l) :=
    noPeriodLower_not_md (pyTitleAux_noPeriodLower false _)
  have hund' : ¬ (['_'] <:+: mdTitleL l) := fun hin => hund (single_inf_mem hin)
  show pyTitleAux false (pyReplaceL ".md".toList []
    (pyReplaceL ['_'] [' '] (mdTitleL l))) = mdTitleL l
  rw [pyReplaceL_of_not_inf hund']
  rw [show ".md".toList = ('.' :: 'm' :: 'd' :: []) from rfl,
    pyReplaceL_of_not_inf hmd]
  show pyTitleAux false (pyTitleAux false _) = _
  rw [pyTitleAux_idem]
  rfl

/-! ## parser.py : Python AST model and `extract_functions_and_docs`

The CPython parser (`ast.parse`) is external: a parsed file is modelled as a
statement tree whose function-definition nodes carry the name, the attached
docstring (`ast.get_docstring`) and the source span used by
`ast.get_source_segment`.  `ast.walk` is the breadth-first traversal below. -/

/-- A character span in the original source text, as used by
`ast.get_source_segment`. -/
structure Span where
  start : Nat
  stop : Nat
deriving DecidableEq

/-- Python statement-tree nodes, as far as `ast.walk` +
`isinstance(node, ast.FunctionDef)` observes them. -/
inductive PyNode where
  | functionDef (name : String) (docstring : Option String)
      (body : List PyNode) (span : Span)
  | asyncFunctionDef (name : String) (docstring : Option String)
      (body : List PyNode) (span : Span)
  | classDef (name : String) (body : List PyNode)
  | otherStmt (body : List PyNode)

/-- `ast.iter_child_nodes`, restricted to the statement children that can
contain further definitions. -/
def children : PyNode → List PyNode
  | .functionDef _ _ body _ => body
  | .asyncFunctionDef _ _ body _ => body
  | .classDef _ body => body
  | .otherStmt body => body

mutual

def nodeSize : PyNode → Nat
  | .functionDef _ _ body _ => 1 + listSize body
  | .asyncFunctionDef _ _ body _ => 1 + listSize body
  | .classDef _ body => 1 + listSize body
  | .otherStmt body => 1 + listSize body

def listSize : List PyNode → Nat
  | [] => 0
  | n :: rest => nodeSize n + listSize rest

end

theorem listSize_append : ∀ a b : List PyNode,
    listSize (a ++ b) = listSize a + listSize b := by
  intro a b
  induction a with
  | nil => rw [List.nil_append, listSize]; omega
  | cons n rest ih =>
    rw [List.cons_append, listSize, listSize, ih]
    omega

theorem listSize_children (n : PyNode) : listSize (children n) < nodeSize n := by
  cases n <;> simp [children, nodeSize]

/-- `ast.walk`: breadth-first traversal yielding every node of the queue and
all its descendants. -/
def walk (q : List PyNode) : List PyNode :=
  match q with
  | [] => []
  | n :: rest => n :: walk (rest ++ children n)
termination_by listSize q
decreasing_by
  rw [listSize_append, listSize]
  have := listSize_children n
  omega

mutual

/-- Number of function-like definitions (both `def` and `async def`) in one
node and its descendants.  This is the spec's notion of "function-like
definition"; it is compared against what the code actually collects. -/
def countFunctionLike : PyNode → Nat
  | .functionDef _ _ body _ => 1 + countFunctionLikeList body
  | .asyncFunctionDef _ _ body _ => 1 + countFunctionLikeList body
  | .classDef _ body => countFunctionLikeList body
  | .otherStmt body => countFunctionLikeList body

def countFunctionLikeList : List PyNode → Nat
  | [] => 0
  | n :: rest => countFunctionLike n + countFunctionLikeList rest

end

mutual

/-- Number of synchronous `def` definitions (`ast.FunctionDef` nodes only) in
one node and its descendants. -/
def countSyncDef : PyNode → Nat
  | .functionDef _ _ body _ => 1 + countSyncDefList body
  | .asyncFunctionDef _ _ body _ => countSyncDefList body
  | .classDef _ body => countSyncDefList body
  | .otherStmt body => countSyncDefList body

def countSyncDefList : List PyNode → Nat
  | [] => 0
  | n :: rest => countSyncDef n + countSyncDefList rest

end

theorem countSyncDefList_append : ∀ a b : List PyNode,
    countSyncDefList (a ++ b) = countSyncDefList a + countSyncDefList b := by
  intro a b
  induction a with
  | nil => rw [List.nil_append, countSyncDefList]; omega
  | cons n rest ih =>
    rw [List.cons_append, countSyncDefList, countSyncDefList, ih]
    omega

/-- One record of the list returned by `extract_functions_and_docs`. -/
structure FunctionInfo where
  name : String
  docstring : String
  code : String
deriving DecidableEq

/-- `ast.get_source_segment(source, node)`: the text of the span in the
original source. -/
def get_source_segment (src : String) (sp : Span) : String :=
  ⟨(src.toList.drop sp.start).take (sp.stop - sp.start)⟩

/-- parser.py lines 9-17: the body of the `ast.walk` loop.  Only
`ast.FunctionDef` nodes produce a record; the record carries the node name,
`docstring or ""`, and the verbatim source segment. -/
def extractNode (src : String) : PyNode → Option FunctionInfo
  | .functionDef name doc _ sp => some ⟨name, doc.getD "", get_source_segment src sp⟩
  | _ => none

/-- parser.py lines 3-19, `extract_functions_and_docs`: parse the file (the
external `ast.parse`, whose outcome is the `parsed` argument; a syntax error
is a `SyntaxError` naming the file, and aborts extraction), then collect one
record per `ast.FunctionDef` met by `ast.walk`. -/
def extract_functions_and_docs (filepath : String) (src : String)
    (parsed : Except String (List PyNode)) : Except String (List FunctionInfo) :=
  match parsed with
  | .error e => .error (e ++ " (" ++ filepath ++ ")")
  | .ok tree => .ok ((walk tree).filterMap (extractNode src))

theorem length_extract_walk (src : String) : ∀ q : List PyNode,
    ((walk q).filterMap (extractNode src)).length = countSyncDefList q
  | [] => by rw [walk, countSyncDefList]; rfl
  | n :: rest => by
    rw [walk, List.filterMap_cons]
    have hrec := length_extract_walk src (rest ++ children n)
    rw [countSyncDefList_append] at hrec
    cases n with
    | functionDef name doc body sp =>
      simp only [extractNode, List.length_cons]
      rw [hrec, countSyncDefList, countSyncDef, children]
      omega
    | asyncFunctionDef name doc body sp =>
      simp only [extractNode]
      rw [hrec, countSyncDefList, countSyncDef, children]
      omega
    | classDef name body =>
      simp only [extractNode]
      rw [hrec, countSyncDefList, countSyncDef, children]
      omega
    | otherStmt body =>
      simp only [extractNode]
      rw [hrec, countSyncDefList, countSyncDef, children]
      omega
termination_by q => listSize q
decreasing_by
  rw [listSize_append, listSize]
  have := listSize_children n
  omega

theorem seg_inf (l : List Char) (a b : Nat) : (l.drop a).take b <:+: l := by
  refine ⟨l.take a, (l.drop a).drop b, ?_⟩
  rw [List.append_assoc, List.take_append_drop, List.take_append_drop]

/-- Every record produced by the extractor is a verbatim substring of the
source text. -/
theorem code_inf_src (src : String) (q : List PyNode) (r : FunctionInfo)
    (hr : r ∈ (walk q).filterMap (extractNode src)) :
    r.code.toList <:+: src.toList := by
  obtain ⟨n, -, hn⟩ := List.mem_filterMap.mp hr
  cases n with
  | functionDef name doc body sp =>
    rw [extractNode] at hn
    cases hn
    exact seg_inf src.toList sp.start (sp.stop - sp.start)
  | asyncFunctionDef name doc body sp => simp [extractNode] at hn
  | classDef name body => simp [extractNode] at hn
  | otherStmt body => simp [extractNode] at hn

/-- Every record's name is the name of some `ast.FunctionDef` node met by the
walk (never of an `ast.AsyncFunctionDef`). -/
theorem name_of_mem_extract (src : String) (q : List PyNode) (r : FunctionInfo)
    (hr : r ∈ (walk q).filterMap (extractNode src)) :
    ∃ doc body sp, PyNode.functionDef r.name doc body sp ∈ walk q := by
  obtain ⟨n, hmem, hn⟩ := List.mem_filterMap.mp hr
  cases n with
  | functionDef name doc body sp =>
    rw [extractNode] at hn
    cases hn
    exact ⟨doc, body, sp, hmem⟩
  | asyncFunctionDef name doc body sp => simp [extractNode] at hn
  | classDef name body => simp [extractNode] at hn
  | otherStmt body => simp [extractNode] at hn

mutual

/-- `true` when the node or a descendant is a synchronous `def` named `nm`. -/
def hasSyncDefNamed (nm : String) : PyNode → Bool
  | .functionDef name _ body _ => name == nm || hasSyncDefNamedList nm body
  | .asyncFunctionDef _ _ body _ => hasSyncDefNamedList nm body
  | .classDef _ body => hasSyncDefNamedList nm body
  | .otherStmt body => hasSyncDefNamedList nm body

/-- `true` when some node of the list or a descendant is a synchronous `def`
named `nm`. -/
def hasSyncDefNamedList (nm : String) : List PyNode → Bool
  | [] => false
  | n :: rest => hasSyncDefNamed nm n || hasSyncDefNamedList nm rest

end

theorem hasSyncDefNamedList_append (nm : String) : ∀ a b : List PyNode,
    hasSyncDefNamedList nm (a ++ b) =
      (hasSyncDefNamedList nm a || hasSyncDefNamedList nm b) := by
  intro a b
  induction a with
  | nil => rw [List.nil_append, hasSyncDefNamedList, Bool.false_or]
  | cons n rest ih =>
    rw [List.cons_append, hasSyncDefNamedList, hasSyncDefNamedList, ih,
      Bool.or_assoc]

theorem hasSync_of_children (nm : String) (n : PyNode)
    (h : hasSyncDefNamedList nm (children n) = true) :
    hasSyncDefNamed nm n = true := by
  cases n <;> simp [children, hasSyncDefNamed] at h ⊢ <;> simp [h]

theorem hasSync_of_mem_walk (nm : String) : ∀ q : List PyNode,
    ∀ doc body sp, PyNode.functionDef nm doc body sp ∈ walk q →
    hasSyncDefNamedList nm q = true
  | [], doc, body, sp => by rw [walk]; intro h; exact absurd h (List.not_mem_nil _)
  | n :: rest, doc, body, sp => by
    rw [walk]
    intro h
    rcases List.mem_cons.mp h with h1 | h1
    · rw [← h1, hasSyncDefNamedList, hasSyncDefNamed]
      simp
    · have := hasSync_of_mem_walk nm (rest ++ children n) doc body sp h1
      rw [hasSyncDefNamedList_append] at this
      rw [hasSyncDefNamedList]
      rcases Bool.or_eq_true_iff.mp this with h2 | h2
      · rw [h2, Bool.or_true]
      · rw [hasSync_of_children nm n h2, Bool.true_or]
termination_by q => listSize q
decreasing_by
  rw [listSize_append, listSize]
  have := listSize_children n
  omega

/-! ## doc_generator.py : generate_doc -/

/-- doc_generator.py lines 16-26, `generate_doc`: read `prompt_template.txt`
(external file system; outcome in `templateRead` — a read failure raises),
substitute the code snippet for the `{code}` placeholder via `str.format`
(a substitution failure raises `KeyError`/`ValueError`), send the prompt to
the external generation service, and return the stripped response text. -/
def generate_doc (templateRead : Except String String)
    (service : String → Except String String) (code_snippet : String) :
    Except String String :=
  match templateRead with
  | .error e => .error ("TemplateError: " ++ e)
  | .ok tmpl =>
    match pyFormat tmpl "code" code_snippet with
    | none => .error "FormatError: KeyError"
    | some prompt =>
      match service prompt with
      | .error e => .error ("GenerationError: " ++ e)
      | .ok text => .ok (pyStrip text)

/-! ## doc_generator.py : main (the per-unit documentation pipeline) -/

/-- Outcome of `main`'s processing of one source file. -/
inductive FileOutcome where
  | skipped
  | written (doc : String)
  | failed (err : String)
deriving DecidableEq

/-- One input source file of `main`: its basename (without `.py`), its text,
and the outcome of the external `ast.parse` on that text. -/
structure SrcFile where
  name : String
  text : String
  parsed : Except String (List PyNode)

/-- doc_generator.py line 67: the per-file Markdown header. -/
def docFileHeader (filename : String) : String :=
  "# Documentation for " ++ filename ++ ".py\n\n"

/-- doc_generator.py lines 69-73: generate the per-function sections in
extraction order; the first generation failure aborts the remaining units of
this file (the exception propagates to the per-file handler). -/
def genSections (templateRead : Except String String)
    (service : String → Except String String) :
    List FunctionInfo → Except String (List String)
  | [] => .ok []
  | fn :: rest =>
    match generate_doc templateRead service fn.code with
    | .error e => .error e
    | .ok doc =>
      match genSections templateRead service rest with
      | .error e => .error e
      | .ok secs =>
        .ok (("## Function: `" ++ fn.name ++ "`\n\n" ++ doc ++ "\n\n---\n\n") :: secs)

/-- doc_generator.py lines 59-79: the body of the per-file loop (`try`
block plus `except` handler).  `write` is the external file system's outcome
for writing this file's output artifact. -/
def processFile (templateRead : Except String String)
    (service : String → Except String String)
    (write : String → String → Except String Unit) (f : SrcFile) : FileOutcome :=
  match extract_functions_and_docs f.name f.text f.parsed with
  | .error e => .failed e
  | .ok [] => .skipped
  | .ok (fn :: rest) =>
    match genSections templateRead service (fn :: rest) with
    | .error e => .failed e
    | .ok secs =>
      match write f.name (docFileHeader f.name ++ String.join secs) with
      | .error e => .failed e
      | .ok _ => .written (docFileHeader f.name ++ String.join secs)

/-- doc_generator.py lines 53-79, `main`'s file loop: every file is processed
by `processFile`; an error is reported and the loop continues with the next
file. -/
def main (templateRead : Except String String)
    (service : String → Except String String)
    (write : String → String → Except String Unit) :
    List SrcFile → List (String × FileOutcome)
  | [] => []
  | f :: rest =>
    (f.name, processFile templateRead service write f) ::
      main templateRead service write rest

/-! ## doc_generator.py : combine_markdown_files -/

/-- doc_generator.py line 128: the page-break separator appended after every
module except the last. -/
def pageBreakMarker : String := "\n\n---\n\n\\newpage\n\n"

/-- The page-break separator as a character list. -/
def markerL : List Char := pageBreakMarker.toList

/-- doc_generator.py line 110: the combined document's top-level title. -/
def combinedHeader : String := "# Project: CRUD Functionality Documentation\n\n"

/-- Outcome of the external read of one input Markdown file. -/
inductive ReadResult where
  | ok (content : String)
  | err (msg : String)
deriving DecidableEq

/-- Lexicographic code-point comparison of character lists: the order Python
uses to compare strings in `list.sort()`. -/
def lexLe : List Char → List Char → Bool
  | [], _ => true
  | _ :: _, [] => false
  | c :: cs, d :: ds => if c.toNat = d.toNat then lexLe cs ds else decide (c.toNat < d.toNat)

/-- Python string comparison `a <= b` by code points. -/
def strLe (a b : String) : Bool :=
  lexLe a.toList b.toList

theorem lexLe_total : ∀ a b : List Char, lexLe a b = false → lexLe b a = true := by
  intro a
  induction a with
  | nil => intro b h; rw [lexLe] at h; exact absurd h (by simp)
  | cons c cs ih =>
    intro b h
    cases b with
    | nil => rw [lexLe]
    | cons d ds =>
      rw [lexLe] at h
      rw [lexLe]
      by_cases hcd : c.toNat = d.toNat
      · rw [if_pos hcd] at h
        rw [if_pos hcd.symm]
        exact ih ds h
      · rw [if_neg hcd] at h
        rw [if_neg (fun hdc => hcd hdc.symm)]
        simp at h ⊢
        omega

theorem lexLe_trans : ∀ a b c : List Char,
    lexLe a b = true → lexLe b c = true → lexLe a c = true := by
  intro a
  induction a with
  | nil => intro b c _ _; rw [lexLe]
  | cons x xs ih =>
    intro b c hab hbc
    cases b with
    | nil => rw [lexLe] at hab; exact absurd hab (by simp)
    | cons y ys =>
      cases c with
      | nil => rw [lexLe] at hbc; exact absurd hbc (by simp)
      | cons z zs =>
        rw [lexLe] at hab hbc
        rw [lexLe]
        by_cases hxy : x.toNat = y.toNat
        · rw [if_pos hxy] at hab
          by_cases hyz : y.toNat = z.toNat
          · rw [if_pos hyz] at hbc
            rw [if_pos (hxy.trans hyz)]
            exact ih ys zs hab hbc
          · rw [if_neg hyz] at hbc
            simp at hbc
            rw [if_neg (by omega), decide_eq_true_eq]
            omega
        · rw [if_neg hxy] at hab
          simp at hab
          by_cases hyz : y.toNat = z.toNat
          · rw [if_neg (by omega), decide_eq_true_eq]
            omega
          · rw [if_neg hyz] at hbc
            simp at hbc
            rw [if_neg (by omega), decide_eq_true_eq]
            omega

/-- Sorted insertion by filename (first component). -/
def insertByName {β : Type} (f : String × β) :
    List (String × β) → List (String × β)
  | [] => [f]
  | g :: rest => if strLe f.1 g.1 then f :: g :: rest else g :: insertByName f rest

/-- `md_files.sort()` (doc_generator.py line 104): stable sort by filename. -/
def sortByName {β : Type} : List (String × β) → List (String × β)
  | [] => []
  | f :: rest => insertByName f (sortByName rest)

/-- doc_generator.py lines 112-132: the contribution of one input file to
`combined_content`.  A successful read contributes the derived title heading,
the stripped content, and the page-break separator unless the file is the
last; a failed read contributes only the inline error block (the separator
statement is skipped by the exception). -/
def fileChunk (isLast : Bool) (f : String × ReadResult) : List Char :=
  match f.2 with
  | .ok content =>
    ("\n\n# " ++ mdTitle f.1 ++ "\n\n").toList ++ stripL content.toList ++
      (if isLast then [] else markerL)
  | .err e =>
    ("\n\n## Error processing " ++ f.1 ++ "\n" ++ e ++ "\n\n").toList

/-- The chunks of all files, flagging the last file. -/
def chunksOf : List (String × ReadResult) → List (List Char)
  | [] => []
  | [f] => [fileChunk true f]
  | f :: g :: rest => fileChunk false f :: chunksOf (g :: rest)

/-- doc_generator.py lines 92-147, `combine_markdown_files`: zero input files
is the no-input failure (the function reports `[ERROR] No .md files found`
and produces no output artifact); otherwise the files are sorted by name and
concatenated under the top-level title. -/
def combine_markdown_files (files : List (String × ReadResult)) :
    Except String (List Char) :=
  if files = [] then
    .error "No .md files found"
  else
    .ok (combinedHeader.toList ++ (chunksOf (sortByName files)).flatten)

/-! ## Lemmas about the `str.format` model -/

/-- `true` when the string contains no brace character. -/
def braceFree (s : String) : Bool :=
  s.toList.all (fun c => !(c == lbChar) && !(c == rbChar))

theorem braceFree_spec {s : String} (h : braceFree s = true) :
    ∀ c ∈ s.toList, c ≠ lbChar ∧ c ≠ rbChar := by
  intro c hc
  have := List.all_eq_true.mp h c hc
  simp at this
  exact this

theorem pyFormatScan_passthrough (key v : List Char) :
    ∀ (pre rest : List Char), (∀ c ∈ pre, c ≠ lbChar ∧ c ≠ rbChar) →
      pyFormatScan key v (pre ++ rest) =
        (pyFormatScan key v rest).map (pre ++ ·) := by
  intro pre
  induction pre with
  | nil =>
    intro rest _
    cases h : pyFormatScan key v rest <;> simp [h]
  | cons c pre' ih =>
    intro rest hbf
    have hc := hbf c (List.mem_cons_self c pre')
    have hrec := ih rest (fun x hx => hbf x (List.mem_cons_of_mem c hx))
    rw [List.cons_append, pyFormatScan.eq_def]
    simp only [if_neg hc.1, if_neg hc.2]
    rw [hrec]
    cases h : pyFormatScan key v rest <;> simp [h]

theorem pyFormatScan_all (key v : List Char) (l : List Char)
    (h : ∀ c ∈ l, c ≠ lbChar ∧ c ≠ rbChar) :
    pyFormatScan key v l = some l := by
  have hp := pyFormatScan_passthrough key v l [] h
  rw [List.append_nil] at hp
  rw [hp]
  simp [pyFormatScan]

theorem fieldSplit_exact : ∀ (name su : List Char), rbChar ∉ name →
    fieldSplit (name ++ rbChar :: su) = some (name, su) := by
  intro name
  induction name with
  | nil =>
    intro su _
    rw [List.nil_append, fieldSplit]
    simp
  | cons c n' ih =>
    intro su h
    have hcne : ¬ (c = rbChar) := by
      intro hc
      rw [← hc] at h
      exact h (List.mem_cons_self c n')
    rw [List.cons_append, fieldSplit, if_neg hcne,
      ih su (fun hm => h (List.mem_cons_of_mem c hm))]
    rfl

theorem pyFormatScan_subst (key v suf : List Char)
    (hkey : ∀ c ∈ key, c ≠ lbChar ∧ c ≠ rbChar)
    (hsuf : ∀ c ∈ suf, c ≠ lbChar ∧ c ≠ rbChar) :
    pyFormatScan key v (lbChar :: (key ++ rbChar :: suf)) = some (v ++ suf) := by
  have hrb : rbChar ∉ key := fun hm => (hkey rbChar hm).2 rfl
  have hsufAll := pyFormatScan_all key v suf hsuf
  cases key with
  | nil =>
    have hfs : fieldSplit (rbChar :: suf) = some ([], suf) := by
      rw [fieldSplit]
      simp
    rw [List.nil_append, pyFormatScan, if_pos rfl, if_neg (by decide : ¬ (rbChar = lbChar))]
    split
    · rename_i heq
      rw [hfs] at heq
      exact absurd heq (by simp)
    · rename_i name rest3 heq
      rw [hfs] at heq
      injection heq with heq2
      injection heq2 with h1 h2
      subst h1
      subst h2
      rw [if_pos rfl, hsufAll]
      rfl
  | cons c k' =>
    have hc := hkey c (List.mem_cons_self c k')
    have hfs : fieldSplit (c :: (k' ++ rbChar :: suf)) = some (c :: k', suf) := by
      have := fieldSplit_exact (c :: k') suf hrb
      rw [List.cons_append] at this
      exact this
    rw [List.cons_append, pyFormatScan, if_pos rfl, if_neg hc.1]
    split
    · rename_i heq
      rw [hfs] at heq
      exact absurd heq (by simp)
    · rename_i name rest3 heq
      rw [hfs] at heq
      injection heq with heq2
      injection heq2 with h1 h2
      subst h1
      subst h2
      rw [if_pos rfl, hsufAll]
      rfl

theorem string_toList_append (a b : String) : (a ++ b).toList = a.toList ++ b.toList := by
  simp [String.toList]

theorem pyFormat_subst (pre key v suf : String)
    (hpre : braceFree pre = true) (hkey : braceFree key = true)
    (hsuf : braceFree suf = true) :
    pyFormat (pre ++ ("\x7b" ++ key ++ "\x7d") ++ suf) key v =
      some (pre ++ v ++ suf) := by
  rw [pyFormat]
  have h7b : ("\x7b" : String).toList = [lbChar] := by decide
  have h7d : ("\x7d" : String).toList = [rbChar] := by decide
  have htl : (pre ++ ("\x7b" ++ key ++ "\x7d") ++ suf).toList =
      pre.toList ++ (lbChar :: (key.toList ++ rbChar :: suf.toList)) := by
    rw [string_toList_append, string_toList_append, string_toList_append,
      string_toList_append, h7b, h7d]
    simp only [List.append_assoc, List.singleton_append, List.cons_append,
      List.nil_append]
  rw [htl,
    pyFormatScan_passthrough key.toList v.toList pre.toList _ (braceFree_spec hpre),
    pyFormatScan_subst key.toList v.toList suf.toList
      (braceFree_spec hkey) (braceFree_spec hsuf)]
  show some (String.mk (pre.toList ++ (v.toList ++ suf.toList))) = some (pre ++ v ++ suf)
  congr 1
  apply String.ext
  show pre.toList ++ (v.toList ++ suf.toList) = (pre ++ v ++ suf).data
  rw [show (pre ++ v ++ suf).data = (pre ++ v ++ suf).toList from rfl,
    string_toList_append, string_toList_append, List.append_assoc]

/-! ## srs_generator.py : SRSGenerator -/

/-- srs_generator.py lines 92-110, `get_default_prompt`: the built-in default
SRS prompt. -/
def get_default_prompt : String :=
  "\n        Analyze the following CRUD function documentation and create a comprehensive Software Requirements Specification (SRS) section.\n\n        Function Documentation:\n        {function_docs}\n\n        Please provide:\n        1. **Functional Requirements**: Clear, testable requirements in \"The system shall...\" format\n        2. **Business Logic**: Explanation of the business rules and logic\n        3. **Input/Output Specifications**: Detailed parameter descriptions and return values\n        4. **Error Handling**: Expected error conditions and responses\n        5. **Performance Requirements**: Any performance considerations\n        6. **Security Considerations**: Authentication, authorization, data validation needs\n\n        Write in professional SRS format suitable for stakeholders, developers, and testers.\n        Use clear, non-technical language where possible while maintaining technical accuracy.\n        "

/-- The default prompt's text before its `{function_docs}` placeholder. -/
def defaultPromptPre : String :=
  "\n        Analyze the following CRUD function documentation and create a comprehensive Software Requirements Specification (SRS) section.\n\n        Function Documentation:\n        "

/-- The default prompt's text after its `{function_docs}` placeholder. -/
def defaultPromptSuf : String :=
  "\n\n        Please provide:\n        1. **Functional Requirements**: Clear, testable requirements in \"The system shall...\" format\n        2. **Business Logic**: Explanation of the business rules and logic\n        3. **Input/Output Specifications**: Detailed parameter descriptions and return values\n        4. **Error Handling**: Expected error conditions and responses\n        5. **Performance Requirements**: Any performance considerations\n        6. **Security Considerations**: Authentication, authorization, data validation needs\n\n        Write in professional SRS format suitable for stakeholders, developers, and testers.\n        Use clear, non-technical language where possible while maintaining technical accuracy.\n        "

set_option maxRecDepth 8192 in
theorem default_prompt_decomp :
    get_default_prompt =
      defaultPromptPre ++ ("\x7b" ++ "function_docs" ++ "\x7d") ++ defaultPromptSuf := by
  decide

/-- srs_generator.py lines 83-90, `load_prompt_template`: the content of
`srs_prompt_template.txt` when readable, the built-in default otherwise. -/
def load_prompt_template (fileRead : Option String) : String :=
  match fileRead with
  | some t => t
  | none => get_default_prompt

/-- srs_generator.py lines 131-141, `generate_srs_content`: build the prompt
(the `str.format` call sits outside the `try` block, so a substitution
failure raises), then call the external generation service inside the `try`;
a service failure is caught and becomes the inline error text, so the call
itself returns normally. -/
def generate_srs_content (fileRead : Option String)
    (service : String → Except String String) (function_docs : String) :
    Except String String :=
  match pyFormat (load_prompt_template fileRead) "function_docs" function_docs with
  | none => .error "KeyError"
  | some prompt =>
    .ok (match service prompt with
         | .ok text => pyStrip text
         | .error e => "Error generating content for this module: " ++ e)

/-- srs_generator.py lines 189-192: the per-module table-of-contents rows,
numbered from `i`, with estimated page `page` stepping by 2 per module. -/
def tocModuleRows : Nat → Nat → List String → List (String × Nat)
  | _, _, [] => []
  | i, page, m :: rest =>
    (toString i ++ ". " ++ pyTitle m ++ " Module Requirements", page) ::
      tocModuleRows (i + 1) (page + 2) rest

/-- srs_generator.py lines 177-209, `create_table_of_contents`: the rows of
`toc_data` below the column-header row `['Section', 'Page']`.  The estimated
page number is kept as a number; the code renders it with `str`. -/
def create_table_of_contents (modules : List String) : List (String × Nat) :=
  [("1. Introduction", 3), ("2. System Overview", 4),
    ("3. Functional Requirements", 5)]
  ++ tocModuleRows 4 6 modules
  ++ [(toString (modules.length + 4) ++ ". Non-Functional Requirements",
        6 + 2 * modules.length),
      (toString (modules.length + 5) ++ ". Appendices",
        6 + 2 * modules.length + 1)]

theorem tocModuleRows_length : ∀ (mods : List String) (i page : Nat),
    (tocModuleRows i page mods).length = mods.length := by
  intro mods
  induction mods with
  | nil => intro i page; rfl
  | cons m rest ih =>
    intro i page
    rw [tocModuleRows, List.length_cons, ih, List.length_cons]

theorem tocModuleRows_pages : ∀ (mods : List String) (i page : Nat),
    (tocModuleRows i page mods).map (fun e => e.2) =
      List.range' page mods.length 2 := by
  intro mods
  induction mods with
  | nil => intro i page; rfl
  | cons m rest ih =>
    intro i page
    rw [tocModuleRows, List.map_cons, ih, List.length_cons, List.range'_succ]

/-! ## Aggregator support lemmas -/

theorem mem_insertByName {β : Type} (f x : String × β) :
    ∀ l : List (String × β), x ∈ insertByName f l ↔ x = f ∨ x ∈ l := by
  intro l
  induction l with
  | nil => simp [insertByName]
  | cons g rest ih =>
    rw [insertByName]
    by_cases h : strLe f.1 g.1 = true
    · rw [if_pos h]
      simp [List.mem_cons]
    · rw [if_neg h]
      simp [List.mem_cons, ih]
      tauto

theorem mem_sortByName {β : Type} (x : String × β) :
    ∀ l : List (String × β), x ∈ sortByName l ↔ x ∈ l := by
  intro l
  induction l with
  | nil => simp [sortByName]
  | cons f rest ih =>
    rw [sortByName, mem_insertByName, ih, List.mem_cons]

theorem length_insertByName {β : Type} (f : String × β) :
    ∀ l : List (String × β), (insertByName f l).length = l.length + 1 := by
  intro l
  induction l with
  | nil => rfl
  | cons g rest ih =>
    rw [insertByName]
    by_cases h : strLe f.1 g.1 = true
    · rw [if_pos h]
      simp
    · rw [if_neg h, List.length_cons, ih, List.length_cons]

theorem length_sortByName {β : Type} :
    ∀ l : List (String × β), (sortByName l).length = l.length := by
  intro l
  induction l with
  | nil => rfl
  | cons f rest ih =>
    rw [sortByName, length_insertByName, ih, List.length_cons]

theorem insertByName_sorted {β : Type} (f : String × β) :
    ∀ l : List (String × β), List.Pairwise (fun a b => strLe a.1 b.1 = true) l →
      List.Pairwise (fun a b => strLe a.1 b.1 = true) (insertByName f l) := by
  intro l
  induction l with
  | nil => intro _; simp [insertByName]
  | cons g rest ih =>
    intro h
    rcases List.pairwise_cons.mp h with ⟨hg, hrest⟩
    rw [insertByName]
    by_cases hle : strLe f.1 g.1 = true
    · rw [if_pos hle]
      refine List.pairwise_cons.mpr ⟨?_, h⟩
      intro b hb
      rcases List.mem_cons.mp hb with rfl | hb2
      · exact hle
      · exact lexLe_trans _ _ _ hle (hg b hb2)
    · rw [if_neg hle]
      refine List.pairwise_cons.mpr ⟨?_, ih hrest⟩
      intro b hb
      rcases (mem_insertByName f b rest).mp hb with rfl | hb2
      · exact lexLe_total _ _ (Bool.not_eq_true _ ▸ hle)
      · exact hg b hb2

theorem sortByName_sorted {β : Type} :
    ∀ l : List (String × β), List.Pairwise (fun a b => strLe a.1 b.1 = true) (sortByName l) := by
  intro l
  induction l with
  | nil => simp [sortByName]
  | cons f rest ih => exact insertByName_sorted f (sortByName rest) ih

/-- Injection of successfully-read files. -/
def toOk (files : List (String × String)) : List (String × ReadResult) :=
  files.map (fun p => (p.1, ReadResult.ok p.2))

theorem insertByName_toOk (p : String × String) :
    ∀ l : List (String × String),
      insertByName (p.1, ReadResult.ok p.2) (toOk l) = toOk (insertByName p l) := by
  intro l
  induction l with
  | nil => rfl
  | cons g rest ih =>
    show insertByName (p.1, ReadResult.ok p.2) ((g.1, ReadResult.ok g.2) :: toOk rest) = _
    rw [insertByName, insertByName]
    by_cases h : strLe p.1 g.1 = true
    · rw [if_pos h, if_pos h]
      rfl
    · rw [if_neg h, if_neg h, ih]
      rfl

theorem sortByName_toOk :
    ∀ files : List (String × String),
      sortByName (toOk files) = toOk (sortByName files) := by
  intro files
  induction files with
  | nil => rfl
  | cons f rest ih =>
    show insertByName (f.1, ReadResult.ok f.2) (sortByName (toOk rest)) = _
    rw [ih, insertByName_toOk, sortByName]

/-- The title heading contributed by one successfully-read module. -/
def moduleHeadL (name : String) : List Char :=
  ("\n\n# " ++ mdTitle name ++ "\n\n").toList

/-- The inline error block contributed by one failed read
(doc_generator.py line 132). -/
def errBlockL (name msg : String) : List Char :=
  ("\n\n## Error processing " ++ name ++ "\n" ++ msg ++ "\n\n").toList

/-- The segment one successfully-read module contributes between markers. -/
def modulePart (f : String × String) : List Char :=
  moduleHeadL f.1 ++ stripL f.2.toList

/-- What splitting the combined output on the page-break marker must return:
the first module's segment carries the combined document's header. -/
def expectedSegments : List (String × String) → List (List Char)
  | [] => []
  | f :: rest => (combinedHeader.toList ++ modulePart f) :: rest.map modulePart

theorem fileChunk_ok_false (f : String × String) :
    fileChunk false (f.1, ReadResult.ok f.2) = modulePart f ++ markerL := by
  rw [fileChunk, modulePart, moduleHeadL]
  simp [List.append_assoc]

theorem fileChunk_ok_true (f : String × String) :
    fileChunk true (f.1, ReadResult.ok f.2) = modulePart f := by
  rw [fileChunk, modulePart, moduleHeadL]
  simp

theorem flat_chunks : ∀ fs : List (String × String), fs ≠ [] →
    (chunksOf (toOk fs)).flatten = interc markerL (fs.map modulePart) := by
  intro fs
  induction fs with
  | nil => intro h; exact absurd rfl h
  | cons f rest ih =>
    intro _
    cases rest with
    | nil =>
      show (chunksOf [(f.1, ReadResult.ok f.2)]).flatten = _
      rw [chunksOf, List.map_cons, List.map_nil, interc, List.flatten,
        List.flatten, List.append_nil, fileChunk_ok_true]
    | cons g rest2 =>
      show (chunksOf ((f.1, ReadResult.ok f.2) :: (g.1, ReadResult.ok g.2) ::
        toOk rest2)).flatten = _
      rw [chunksOf, List.flatten]
      have ihg := ih (List.cons_ne_nil g rest2)
      rw [show ((g.1, ReadResult.ok g.2) :: toOk rest2) = toOk (g :: rest2) from rfl,
        ihg, fileChunk_ok_false]
      simp only [List.map_cons]
      rw [show ∀ p q rest3, interc markerL (p :: q :: rest3) =
          p ++ markerL ++ interc markerL (q :: rest3) from fun p q rest3 => rfl]

theorem combined_eq_interc : ∀ fs : List (String × String), fs ≠ [] →
    combinedHeader.toList ++ (chunksOf (toOk fs)).flatten =
      interc markerL (expectedSegments fs) := by
  intro fs
  cases fs with
  | nil => intro h; exact absurd rfl h
  | cons f rest =>
    intro _
    cases rest with
    | nil =>
      show combinedHeader.toList ++ (chunksOf [(f.1, ReadResult.ok f.2)]).flatten = _
      rw [chunksOf, List.flatten, List.flatten, List.append_nil, fileChunk_ok_true,
        expectedSegments, List.map_nil, interc]
    | cons g rest2 =>
      have hfc := flat_chunks (f :: g :: rest2) (List.cons_ne_nil f (g :: rest2))
      rw [hfc, expectedSegments]
      simp only [List.map_cons]
      rw [show ∀ p q rest3, interc markerL (p :: q :: rest3) =
          p ++ markerL ++ interc markerL (q :: rest3) from fun p q rest3 => rfl,
        show ∀ p q rest3, interc markerL (p :: q :: rest3) =
          p ++ markerL ++ interc markerL (q :: rest3) from fun p q rest3 => rfl]
      simp [List.append_assoc]

theorem inf_append_left {u v w : List Char} (h : u <:+: v) : u <:+: w ++ v := by
  obtain ⟨s, t, rfl⟩ := h
  exact ⟨w ++ s, t, by simp [List.append_assoc]⟩

theorem inf_flatten {c : List Char} : ∀ cs : List (List Char), c ∈ cs →
    c <:+: cs.flatten := by
  intro cs
  induction cs with
  | nil => intro h; exact absurd h (List.not_mem_nil c)
  | cons d rest ih =>
    intro h
    rw [List.flatten]
    rcases List.mem_cons.mp h with rfl | h2
    · exact ⟨[], rest.flatten, by simp⟩
    · exact inf_append_left (ih h2)

theorem chunk_mem : ∀ (fs : List (String × ReadResult)) (p : String × ReadResult),
    p ∈ fs → fileChunk true p ∈ chunksOf fs ∨ fileChunk false p ∈ chunksOf fs := by
  intro fs
  induction fs with
  | nil => intro p h; exact absurd h (List.not_mem_nil p)
  | cons f rest ih =>
    intro p h
    cases rest with
    | nil =>
      rcases List.mem_cons.mp h with rfl | h2
      · left
        rw [chunksOf]
        exact List.mem_cons_self _ _
      · exact absurd h2 (List.not_mem_nil p)
    | cons g rest2 =>
      rcases List.mem_cons.mp h with rfl | h2
      · right
        rw [chunksOf]
        exact List.mem_cons_self _ _
      · rcases ih p h2 with h3 | h3
        · left
          rw [chunksOf]
          exact List.mem_cons_of_mem _ h3
        · right
          rw [chunksOf]
          exact List.mem_cons_of_mem _ h3

theorem fileChunk_err (b : Bool) (name e : String) :
    fileChunk b (name, ReadResult.err e) = errBlockL name e := by
  cases b <;> rfl

theorem moduleHeadL_pre_chunk (b : Bool) (name c : String) :
    moduleHeadL name <+: fileChunk b (name, ReadResult.ok c) := by
  cases b with
  | false =>
    exact ⟨stripL c.toList ++ markerL, by rw [fileChunk]; simp [moduleHeadL, List.append_assoc]⟩
  | true =>
    exact ⟨stripL c.toList, by rw [fileChunk]; simp [moduleHeadL, List.append_assoc]⟩

/-- Bool check that `sep` occurs somewhere in `l`. -/
def containsSeq (sep : List Char) (l : List Char) : Bool :=
  match l with
  | [] => sep.isEmpty
  | c :: rest => sep.isPrefixOf (c :: rest) || containsSeq sep rest

theorem containsSeq_iff {sep : List Char} (hsep : sep ≠ []) :
    ∀ l : List Char, containsSeq sep l = true ↔ sep <:+: l := by
  intro l
  induction l with
  | nil =>
    rw [containsSeq]
    constructor
    · intro h
      exact absurd (List.isEmpty_iff.mp h) hsep
    · intro h
      rw [ List.infix_nil] at h
      exact absurd h hsep
  | cons c rest ih =>
    rw [containsSeq, Bool.or_eq_true, ih, List.infix_cons_iff]
    constructor
    · rintro (h | h)
      · exact Or.inl ( List.isPrefixOf_iff_prefix.mp h)
      · exact Or.inr h
    · rintro (h | h)
      · exact Or.inl ( List.isPrefixOf_iff_prefix.mpr h)
      · exact Or.inr h

/-- Executable version of `cleanParts`. -/
def cleanPartsB (sep : List Char) : List (List Char) → Bool
  | [] => true
  | [p] => ! containsSeq sep p
  | p :: q :: rest => (! containsSeq sep (p ++ sep.dropLast)) && cleanPartsB sep (q :: rest)

theorem cleanParts_of_B {sep : List Char} (hsep : sep ≠ []) :
    ∀ parts : List (List Char), cleanPartsB sep parts = true → cleanParts sep parts := by
  intro parts
  induction parts with
  | nil => intro _; trivial
  | cons p rest ih =>
    cases rest with
    | nil =>
      intro h
      rw [cleanPartsB, Bool.not_eq_true'] at h
      show ¬ sep <:+: p
      intro hin
      rw [← containsSeq_iff hsep] at hin
      rw [h] at hin
      exact Bool.false_ne_true hin
    | cons q rest2 =>
      intro h
      rw [cleanPartsB, Bool.and_eq_true, Bool.not_eq_true'] at h
      refine ⟨?_, ih h.2⟩
      intro hin
      rw [← containsSeq_iff hsep] at hin
      rw [h.1] at hin
      exact Bool.false_ne_true hin

theorem range'_step2_pairwise : ∀ (n s : Nat),
    List.Pairwise (fun a b => a < b) (List.range' s n 2) := by
  intro n
  induction n with
  | zero => intro s; simp
  | succ n' ih =>
    intro s
    rw [List.range'_succ]
    refine List.pairwise_cons.mpr ⟨?_, ih (s + 2)⟩
    intro b hb
    rcases List.mem_range'.mp hb with ⟨i, hi, rfl⟩
    omega

/-! ## Claim theorems -/

/-- A file whose only definition is an `async def`: one function-like
definition, zero extracted records. -/
def asyncTree : List PyNode :=
  [PyNode.asyncFunctionDef "f" none [] ⟨0, 20⟩]

/-- C1 (counterexample): at a file containing one `async def` (a
function-like definition at nesting depth zero), `extract_functions_and_docs`
returns 0 records, not 1: `ast.walk` + `isinstance(node, ast.FunctionDef)`
skips `ast.AsyncFunctionDef` nodes, so the record count differs from the
number of function-like definitions. -/
theorem C1_counterexample :
    ¬ ((extract_functions_and_docs "a.py" "async def f(): pass"
          (Except.ok asyncTree)).map (fun res => res.length) =
        Except.ok (countFunctionLikeList asyncTree)) := by
  have h1 : extract_functions_and_docs "a.py" "async def f(): pass"
      (Except.ok asyncTree) = Except.ok [] := by
    simp [extract_functions_and_docs, asyncTree, walk, children, extractNode]
  have h2 : countFunctionLikeList asyncTree = 1 := by
    simp [asyncTree, countFunctionLikeList, countFunctionLike,
      countFunctionLikeList]
  rw [h1, h2]
  simp [Except.map]

/-- C1 (amended): for every parsed source file, `extract_functions_and_docs`
returns exactly one `SourceUnit` record per synchronous `def` definition at
any nesting depth (`async def` definitions are not counted), and each
record's `code` field is a verbatim substring of the original file text. -/
theorem C1_extractor_count_and_verbatim (filepath src : String) (tree : List PyNode) :
    ∃ res, extract_functions_and_docs filepath src (.ok tree) = .ok res ∧
      res.length = countSyncDefList tree ∧
      ∀ r ∈ res, r.code.toList <:+: src.toList :=
  ⟨(walk tree).filterMap (extractNode src), rfl, length_extract_walk src tree,
    fun r hr => code_inf_src src tree r hr⟩

/-- A small file with a nested function and a method inside a class. -/
def c1tree : List PyNode :=
  [PyNode.functionDef "outer" (some "Outer doc.")
      [PyNode.functionDef "inner" none [] ⟨26, 47⟩] ⟨0, 47⟩,
   PyNode.classDef "C"
      [PyNode.functionDef "method" none [] ⟨60, 82⟩]]

/-- The source text of the `c1tree` file. -/
def c1src : String :=
  "def outer():\n    \"\"\"Outer doc.\"\"\"\n    def inner():\n        pass\n\nclass C:\n    def method(self):\n        pass\n"

/-- C1 (witness): the amended claim at a concrete nested file. -/
theorem C1_witness :
    ∃ res, extract_functions_and_docs "m.py" c1src (.ok c1tree) = .ok res ∧
      res.length = countSyncDefList c1tree ∧
      ∀ r ∈ res, r.code.toList <:+: c1src.toList :=
  C1_extractor_count_and_verbatim "m.py" c1src c1tree

/-- C2 (counterexample): a template containing the `\x7b\x7b` brace escape
before its `{code}` placeholder is not reproduced byte-identically outside
the placeholder: Python's `str.format` collapses the escape, so the prompt
is `\x7bY`, not `\x7b\x7bY`. -/
theorem C2_counterexample :
    ¬ (pyFormat ("\x7b\x7b" ++ ("\x7b" ++ "code" ++ "\x7d") ++ "") "code" "Y" =
        some ("\x7b\x7b" ++ "Y" ++ "")) := by
  intro hcontra
  have heval : pyFormat ("\x7b\x7b" ++ ("\x7b" ++ "code" ++ "\x7d") ++ "")
      "code" "Y" = some "\x7bY" := by
    rw [pyFormat,
      show ("\x7b\x7b" ++ ("\x7b" ++ "code" ++ "\x7d") ++ "" : String).toList =
        [lbChar, lbChar, lbChar, 'c', 'o', 'd', 'e', rbChar] from by decide,
      show ("code" : String).toList = ['c', 'o', 'd', 'e'] from by decide,
      show ("Y" : String).toList = ['Y'] from by decide]
    simp [pyFormatScan, fieldSplit, lbChar, rbChar]
  rw [heval] at hcontra
  have heq := Option.some.inj hcontra
  exact absurd heq (by decide)

/-- C2 (amended): for every template of the form `pre ++ "\x7bcode\x7d" ++ suf`
whose surrounding text `pre`/`suf` contains no brace characters (so no
brace escapes and no other replacement fields), the Prompt Builder's
`str.format` call produces `pre ++ X ++ suf`: the code snippet appears
verbatim at the placeholder's position and the rest is byte-identical to the
template, and `generate_doc` sends exactly that prompt to the generation
service. -/
theorem C2_prompt_builder (pre suf X : String)
    (hpre : braceFree pre = true) (hsuf : braceFree suf = true) :
    pyFormat (pre ++ ("\x7b" ++ "code" ++ "\x7d") ++ suf) "code" X =
      some (pre ++ X ++ suf) ∧
    ∀ service : String → Except String String,
      generate_doc (.ok (pre ++ ("\x7b" ++ "code" ++ "\x7d") ++ suf)) service X =
        (match service (pre ++ X ++ suf) with
          | .error e => .error ("GenerationError: " ++ e)
          | .ok t => .ok (pyStrip t)) := by
  have hf := pyFormat_subst pre "code" X suf hpre (by decide) hsuf
  refine ⟨hf, ?_⟩
  intro service
  simp only [generate_doc]
  rw [hf]

/-- C2 (witness): the amended claim at a concrete template and snippet. -/
theorem C2_witness :
    pyFormat ("Document this code:\n" ++ ("\x7b" ++ "code" ++ "\x7d") ++ "\nThanks.")
        "code" "def f(): pass" =
      some ("Document this code:\n" ++ "def f(): pass" ++ "\nThanks.") :=
  (C2_prompt_builder "Document this code:\n" "\nThanks." "def f(): pass"
    (by decide) (by decide)).1

/-- C7: when `ast.parse` fails, `extract_functions_and_docs` fails for the
whole file with an error naming the file, and returns no list of units. -/
theorem C7_parse_failure (filepath src e : String) :
    extract_functions_and_docs filepath src (.error e) =
      .error (e ++ " (" ++ filepath ++ ")") ∧
    filepath.toList <:+: (e ++ " (" ++ filepath ++ ")").toList ∧
    ∀ res : List FunctionInfo,
      extract_functions_and_docs filepath src (.error e) ≠ .ok res := by
  refine ⟨rfl, ?_, ?_⟩
  · refine ⟨(e ++ " (").toList, ")".toList, ?_⟩
    simp [string_toList_append]
  · intro res h
    simp [extract_functions_and_docs] at h

/-- C8: the Aggregator's title transform (underscores to spaces, `.md`
removed, title case) is idempotent on every filename. -/
theorem C8_title_transform_idem (filename : String) :
    mdTitle (mdTitle filename) = mdTitle filename := by
  show String.mk (mdTitleL (String.mk (mdTitleL filename.toList)).toList) = _
  rw [show (String.mk (mdTitleL filename.toList)).toList =
      mdTitleL filename.toList from rfl, mdTitleL_idem]
  rfl

/-- C9: the extractor collects only synchronous `def` definitions: if no
synchronous `def` named `nm` occurs anywhere in the tree, no extracted record
bears the name `nm` — in particular a function defined only with `async def`
is never included, at any nesting depth. -/
theorem C9_async_never_extracted (filepath src nm : String) (tree : List PyNode)
    (hno : hasSyncDefNamedList nm tree = false)
    (res : List FunctionInfo)
    (hres : extract_functions_and_docs filepath src (.ok tree) = .ok res) :
    res.all (fun r => r.name != nm) = true := by
  have hres2 : res = (walk tree).filterMap (extractNode src) := by
    simp [extract_functions_and_docs] at hres
    exact hres.symm
  rw [hres2, List.all_eq_true]
  intro r hr
  obtain ⟨doc, body, sp, hmem⟩ := name_of_mem_extract src tree r hr
  rw [bne_iff_ne]
  intro heq
  rw [heq] at hmem
  have hsync := hasSync_of_mem_walk nm tree doc body sp hmem
  rw [hno] at hsync
  exact Bool.false_ne_true hsync

/-- A file with one synchronous `def f` and one `async def g`. -/
def c9tree : List PyNode :=
  [PyNode.functionDef "f" none [] ⟨0, 13⟩,
   PyNode.asyncFunctionDef "g" none [] ⟨15, 35⟩]

/-- C9 (witness): at the concrete file, `g` (defined only via `async def`)
is absent from the extraction result. -/
theorem C9_witness :
    hasSyncDefNamedList "g" c9tree = false ∧
    ((walk c9tree).filterMap
        (extractNode "def f(): pass\n\nasync def g(): pass")).all
      (fun r => r.name != "g") = true :=
  ⟨by decide,
    C9_async_never_extracted "m.py" "def f(): pass\n\nasync def g(): pass" "g"
      c9tree (by decide) _ rfl⟩

theorem expectedSegments_ne : ∀ fs : List (String × String), fs ≠ [] →
    expectedSegments fs ≠ [] := by
  intro fs h
  cases fs with
  | nil => exact absurd rfl h
  | cons f rest => simp [expectedSegments]

theorem expectedSegments_length : ∀ fs : List (String × String), fs ≠ [] →
    (expectedSegments fs).length = fs.length := by
  intro fs h
  cases fs with
  | nil => exact absurd rfl h
  | cons f rest => simp [expectedSegments]

/-- Two input files; the first file's content contains the page-break marker
itself. -/
def c3cexFiles : List (String × ReadResult) :=
  [("a.md", ReadResult.ok ("X" ++ pageBreakMarker ++ "Y")),
   ("b.md", ReadResult.ok "Z")]

/-- C3 (counterexample): with two input Markdown files whose first file's
content itself contains the page-break marker, splitting the combined output
on the marker yields 3 segments, not 2. -/
theorem C3_counterexample :
    ¬ ((combine_markdown_files c3cexFiles).map
          (fun out => (splitOnList markerL out).length) =
        Except.ok c3cexFiles.length) := by
  intro hcontra
  have heval : (combine_markdown_files c3cexFiles).map
      (fun out => (splitOnList markerL out).length) = Except.ok 3 := by
    simp [c3cexFiles, combine_markdown_files, sortByName, insertByName,
      chunksOf, fileChunk, mdTitle, mdTitleL, pyReplaceL, pyTitleAux,
      stripL, isPySpace, combinedHeader, markerL, pageBreakMarker,
      splitOnList, Except.map]
  rw [heval] at hcontra
  have := Except.ok.inj hcontra
  simp [c3cexFiles] at this

/-- C3 (amended): for every non-empty input where no module's rendered
segment lets the page-break marker occur outside the separators the
aggregator inserts (`cleanPartsB`), splitting the combined output on the
marker yields exactly one segment per input Markdown file, the segments are
the per-file renderings in lexicographic filename order, and the marker is
inserted after every module except the last (`interc`). -/
theorem C3_aggregator_split (files : List (String × String)) (hne : files ≠ [])
    (hclean : cleanPartsB markerL (expectedSegments (sortByName files)) = true) :
    ∃ out, combine_markdown_files (toOk files) = Except.ok out ∧
      splitOnList markerL out = expectedSegments (sortByName files) ∧
      (expectedSegments (sortByName files)).length = files.length ∧
      List.Pairwise (fun a b => strLe a.1 b.1 = true) (sortByName files) := by
  have hmarker : markerL ≠ [] := by decide
  have hsort_ne : sortByName files ≠ [] := by
    intro h
    have hl := length_sortByName (β := String) files
    rw [h] at hl
    cases files with
    | nil => exact hne rfl
    | cons f rest => simp at hl
  have htoOk_ne : ¬ (toOk files = []) := by
    cases files with
    | nil => exact absurd rfl hne
    | cons f rest => simp [toOk]
  have hcomb : combine_markdown_files (toOk files) =
      .ok (combinedHeader.toList ++ (chunksOf (sortByName (toOk files))).flatten) := by
    rw [combine_markdown_files, if_neg htoOk_ne]
  rw [sortByName_toOk, combined_eq_interc (sortByName files) hsort_ne] at hcomb
  refine ⟨_, hcomb, ?_, ?_, sortByName_sorted files⟩
  · exact splitOnList_interc hmarker _ (expectedSegments_ne _ hsort_ne)
      (cleanParts_of_B hmarker _ hclean)
  · rw [expectedSegments_length _ hsort_ne, length_sortByName]

/-- Two clean input files, deliberately given out of order. -/
def c3files : List (String × String) :=
  [("b.md", "Beta doc"), ("a.md", "Alpha doc")]

/-- C3 (witness): the amended claim at two concrete files. -/
theorem C3_witness :
    ∃ out, combine_markdown_files (toOk c3files) = Except.ok out ∧
      splitOnList markerL out = expectedSegments (sortByName c3files) ∧
      (expectedSegments (sortByName c3files)).length = c3files.length ∧
      List.Pairwise (fun a b => strLe a.1 b.1 = true) (sortByName c3files) :=
  C3_aggregator_split c3files (by simp [c3files])
    (by
      simp [c3files, sortByName, insertByName, strLe, lexLe, expectedSegments,
        modulePart, moduleHeadL, mdTitle, mdTitleL, pyReplaceL, pyTitleAux,
        stripL, isPySpace]
      decide)

/-- C4: `combine_markdown_files` fails when there are zero input Markdown
files; when a read of one input file fails, the combined output carries an
inline error block naming that file, and every successfully read file still
contributes its module heading (aggregation of the rest continues). -/
theorem C4_no_input_and_read_isolation (files : List (String × ReadResult)) :
    (files = [] → combine_markdown_files files = .error "No .md files found") ∧
    (files ≠ [] → ∃ out, combine_markdown_files files = .ok out ∧
      (∀ name e, (name, ReadResult.err e) ∈ files → errBlockL name e <:+: out) ∧
      (∀ name c, (name, ReadResult.ok c) ∈ files → moduleHeadL name <:+: out)) := by
  constructor
  · intro h
    rw [h, combine_markdown_files, if_pos rfl]
  · intro hne
    rw [combine_markdown_files, if_neg hne]
    refine ⟨_, rfl, ?_, ?_⟩
    · intro name e hmem
      have hmem2 : (name, ReadResult.err e) ∈ sortByName files :=
        (mem_sortByName _ files).mpr hmem
      have hinf : errBlockL name e <:+: (chunksOf (sortByName files)).flatten := by
        rcases chunk_mem (sortByName files) _ hmem2 with h3 | h3
        · have h4 := inf_flatten _ h3
          rw [fileChunk_err] at h4
          exact h4
        · have h4 := inf_flatten _ h3
          rw [fileChunk_err] at h4
          exact h4
      exact inf_append_left hinf
    · intro name c hmem
      have hmem2 : (name, ReadResult.ok c) ∈ sortByName files :=
        (mem_sortByName _ files).mpr hmem
      have hinf : moduleHeadL name <:+: (chunksOf (sortByName files)).flatten := by
        rcases chunk_mem (sortByName files) _ hmem2 with h3 | h3
        · exact List.IsInfix.trans
            ( List.IsPrefix.isInfix (moduleHeadL_pre_chunk true name c))
            (inf_flatten _ h3)
        · exact List.IsInfix.trans
            ( List.IsPrefix.isInfix (moduleHeadL_pre_chunk false name c))
            (inf_flatten _ h3)
      exact inf_append_left hinf

/-- One good file and one whose read fails. -/
def c4files : List (String × ReadResult) :=
  [("a.md", ReadResult.ok "Alpha"), ("bad.md", ReadResult.err "boom")]

/-- C4 (witness): the claim at a concrete mixed input. -/
theorem C4_witness :
    ∃ out, combine_markdown_files c4files = Except.ok out ∧
      errBlockL "bad.md" "boom" <:+: out ∧ moduleHeadL "a.md" <:+: out := by
  obtain ⟨out, h1, h2, h3⟩ :=
    (C4_no_input_and_read_isolation c4files).2 (by simp [c4files])
  exact ⟨out, h1, h2 "bad.md" "boom" (by simp [c4files]),
    h3 "a.md" "Alpha" (by simp [c4files])⟩

/-- C5: `main` processes every file, and the outcome of each file depends
only on that file: a failure (extraction, generation or write) in one module
never prevents any other module from being processed. -/
theorem C5_pipeline_isolation (t : Except String String)
    (s : String → Except String String)
    (w : String → String → Except String Unit) :
    (∀ files : List SrcFile, (main t s w files).length = files.length) ∧
    (∀ (pre : List SrcFile) (f : SrcFile) (post : List SrcFile),
      main t s w (pre ++ f :: post) =
        main t s w pre ++ (f.name, processFile t s w f) :: main t s w post) := by
  constructor
  · intro files
    induction files with
    | nil => rfl
    | cons f rest ih => rw [main, List.length_cons, List.length_cons, ih]
  · intro pre f post
    induction pre with
    | nil =>
      rw [List.nil_append, main, main]
      rw [List.nil_append]
    | cons g rest ih =>
      rw [List.cons_append, main, main, ih]
      rw [List.cons_append]

/-- C6: the table of contents has exactly `3 + (module count) + 2` entries
and its estimated page numbers are strictly increasing. -/
theorem C6_toc_shape (modules : List String) :
    (create_table_of_contents modules).length = 3 + modules.length + 2 ∧
    List.Pairwise (fun a b => a.2 < b.2) (create_table_of_contents modules) := by
  constructor
  · rw [create_table_of_contents]
    rw [List.length_append, List.length_append, tocModuleRows_length]
    simp
  · have hmap : (create_table_of_contents modules).map (fun e => e.2) =
        [3, 4, 5] ++ List.range' 6 modules.length 2 ++
          [6 + 2 * modules.length, 6 + 2 * modules.length + 1] := by
      rw [create_table_of_contents, List.map_append, List.map_append,
        tocModuleRows_pages]
      rfl
    have hbig : List.Pairwise (fun a b : Nat => a < b)
        ([3, 4, 5] ++ List.range' 6 modules.length 2 ++
          [6 + 2 * modules.length, 6 + 2 * modules.length + 1]) := by
      apply List.pairwise_append.mpr
      refine ⟨?_, ?_, ?_⟩
      · apply List.pairwise_append.mpr
        refine ⟨by decide, range'_step2_pairwise _ _, ?_⟩
        intro a ha b hb
        rcases List.mem_range'.mp hb with ⟨i, hi, rfl⟩
        rcases List.mem_cons.mp ha with rfl | ha2
        · omega
        rcases List.mem_cons.mp ha2 with rfl | ha3
        · omega
        rcases List.mem_cons.mp ha3 with rfl | ha4
        · omega
        · exact absurd ha4 (List.not_mem_nil a)
      · refine List.pairwise_cons.mpr ⟨?_, List.pairwise_singleton _ _⟩
        intro b hb
        rcases List.mem_cons.mp hb with rfl | hb2
        · omega
        · exact absurd hb2 (List.not_mem_nil b)
      · intro a ha b hb
        have hb6 : 6 + 2 * modules.length ≤ b := by
          rcases List.mem_cons.mp hb with rfl | hb2
          · omega
          rcases List.mem_cons.mp hb2 with rfl | hb3
          · omega
          · exact absurd hb3 (List.not_mem_nil b)
        rcases List.mem_append.mp ha with ha2 | ha2
        · rcases List.mem_cons.mp ha2 with rfl | ha3
          · omega
          rcases List.mem_cons.mp ha3 with rfl | ha4
          · omega
          rcases List.mem_cons.mp ha4 with rfl | ha5
          · omega
          · exact absurd ha5 (List.not_mem_nil a)
        · rcases List.mem_range'.mp ha2 with ⟨i, hi, rfl⟩
          omega
    refine List.pairwise_map.mp ?_
    rw [hmap]
    exact hbig

set_option maxRecDepth 8192 in
/-- C10: with the built-in default template, `generate_srs_content` returns
normally for every module input and every service outcome; when the external
generation call fails, the returned text is
`"Error generating content for this module: "` followed by the error text,
so report assembly continues over all modules. -/
theorem C10_srs_generation_isolated (service : String → Except String String)
    (docs : String) :
    generate_srs_content none service docs =
      .ok (match service (defaultPromptPre ++ docs ++ defaultPromptSuf) with
            | .ok text => pyStrip text
            | .error e => "Error generating content for this module: " ++ e) ∧
    ∀ e, service (defaultPromptPre ++ docs ++ defaultPromptSuf) = .error e →
      generate_srs_content none service docs =
        .ok ("Error generating content for this module: " ++ e) ∧
      ("Error generating content for this module: ").toList <+:
        ("Error generating content for this module: " ++ e).toList := by
  have hf : pyFormat (load_prompt_template none) "function_docs" docs =
      some (defaultPromptPre ++ docs ++ defaultPromptSuf) := by
    rw [show load_prompt_template none = get_default_prompt from rfl,
      default_prompt_decomp]
    exact pyFormat_subst defaultPromptPre "function_docs" docs defaultPromptSuf
      (by decide) (by decide) (by decide)
  constructor
  · rw [generate_srs_content, hf]
  · intro e he
    constructor
    · rw [generate_srs_content, hf]
      show Except.ok (match service (defaultPromptPre ++ docs ++ defaultPromptSuf) with
        | Except.ok text => pyStrip text
        | Except.error e2 => "Error generating content for this module: " ++ e2) =
        Except.ok ("Error generating content for this module: " ++ e)
      rw [he]
    · exact ⟨e.toList, by rw [string_toList_append]⟩

/-- C10 (witness): with a failing service, the per-module step still returns
normally, with the inline error text. -/
theorem C10_witness :
    generate_srs_content none (fun _ => Except.error "boom") "DOCS" =
      Except.ok ("Error generating content for this module: " ++ "boom") :=
  ((C10_srs_generation_isolated (fun _ => Except.error "boom") "DOCS").2
    "boom" rfl).1
